import Mathlib

/-!
Verification of the Merkle-CRDT distributed filesystem core
(`src/merkle_crdt/merkle_crdt.py`, `merkle_lww.py`, `merkle_ktree.py`,
`src/filesystem/inode_store.py`, `src/networking/api_server.py`).

The Python code is shallowly embedded: dictionaries become association
lists with Python dict semantics (lookup of a missing key raising
`KeyError` is modelled with `Except`), Python sets become duplicate-free
lists in insertion order, and content hashes (`hashlib.sha1` over the
value fields and the sorted child hashes) are modelled by an injective
constructor, which is exactly the spec's collision-freeness assumption:
a hash determines the `value` list and the list of child hashes (but not
the replica or the stored height, which sha1 does not consume).
-/

namespace CRDTFS

/-- Bytes as produced by Python `bytes` values: a list of values < 256. -/
abbrev Bytes := List Nat

/-- Model of Python `str(n)` for a non-negative integer: decimal digits. -/
def strNat (n : Nat) : String :=
  let rec go (fuel : Nat) (n : Nat) (acc : List Char) : List Char :=
    match fuel with
    | 0 => acc
    | fuel + 1 =>
      let acc := Char.ofNat (48 + n % 10) :: acc
      if n < 10 then acc else go fuel (n / 10) acc
  ⟨go (n + 1) n []⟩

/-- Model of Python `int(s)` on the decimal strings produced by `str`
(the source only parses numeric fields that were produced with `str`). -/
def parseNat (s : String) : Nat :=
  s.toList.foldl (fun a c => a * 10 + (c.toNat - 48)) 0

theorem char_ofNat_toNat (n : Nat) (h : n < 55296) : (Char.ofNat n).toNat = n := by
  have hv : n.isValidChar := Or.inl h
  simp [Char.ofNat, hv, Char.ofNatAux, Char.toNat, UInt32.toNat, UInt32.ofNatTruncate]

theorem parseNat_go (fuel n : Nat) (acc : List Char) (h : n < fuel) :
    (List.foldl (fun a c => a * 10 + (c.toNat - 48)) 0 (strNat.go fuel n acc))
      = (List.foldl (fun a c => a * 10 + (c.toNat - 48)) n acc) := by
  induction fuel generalizing n acc with
  | zero => omega
  | succ fuel ih =>
    rw [strNat.go]
    have hc : (Char.ofNat (48 + n % 10)).toNat = 48 + n % 10 :=
      char_ofNat_toNat _ (by omega)
    by_cases hn : n < 10
    · simp only [hn, if_pos]
      simp [List.foldl, hc]
      congr 1
      omega
    · simp only [hn, if_neg, not_false_iff]
      rw [ih (n / 10) _ (by omega)]
      simp [List.foldl, hc]
      congr 1
      omega

theorem parseNat_strNat (n : Nat) : parseNat (strNat n) = n := by
  simp only [parseNat, strNat, String.toList]
  rw [parseNat_go (n + 1) n [] (by omega)]
  rfl

/-- Model of `base64.b64encode(v).decode()`: an injective text encoding of a
byte string.  We use hexadecimal digits (two characters per byte); the exact
alphabet of the external library is irrelevant to the source's logic, only
that decoding inverts encoding. -/
def b64encode (v : Bytes) : String :=
  ⟨v.foldr (fun b acc => Char.ofNat (48 + b / 16) :: Char.ofNat (48 + b % 16) :: acc) []⟩

/-- Model of `base64.b64decode(s)`, the inverse of `b64encode`. -/
def b64decode (s : String) : Bytes :=
  let rec go : List Char → Bytes
    | c1 :: c2 :: rest => ((c1.toNat - 48) * 16 + (c2.toNat - 48)) :: go rest
    | _ => []
  go s.toList

theorem b64decode_encode (v : Bytes) (hv : ∀ b ∈ v, b < 256) :
    b64decode (b64encode v) = v := by
  induction v with
  | nil => rfl
  | cons b rest ih =>
    have hb : b < 256 := hv b (List.mem_cons_self b rest)
    have h1 : (Char.ofNat (48 + b / 16)).toNat = 48 + b / 16 :=
      char_ofNat_toNat _ (by omega)
    have h2 : (Char.ofNat (48 + b % 16)).toNat = 48 + b % 16 :=
      char_ofNat_toNat _ (by omega)
    have hrest := ih (fun x hx => hv x (List.mem_cons_of_mem _ hx))
    simp only [b64encode, b64decode, String.toList, List.foldr] at *
    rw [b64decode.go]
    simp only [h1, h2]
    rw [show (48 + b / 16 - 48) * 16 + (48 + b % 16 - 48) = b by omega, hrest]

/-- Lexicographic strict order on `(height, replica)` pairs, the Python `>`
on 2-tuples of ints (used with arguments flipped for `<`). -/
def timeLt (a b : Nat × Nat) : Bool :=
  a.1 < b.1 || (a.1 == b.1 && a.2 < b.2)

/-- Lexicographic `≤` on `(height, replica)` pairs. -/
def timeLe (a b : Nat × Nat) : Bool :=
  a.1 < b.1 || (a.1 == b.1 && a.2 ≤ b.2)

theorem timeLt_iff (a b : Nat × Nat) :
    timeLt a b = true ↔ (a.1 < b.1 ∨ (a.1 = b.1 ∧ a.2 < b.2)) := by
  simp [timeLt]

theorem timeLt_irrefl (a : Nat × Nat) : timeLt a a = false := by
  simp [timeLt]

theorem timeLt_asymm {a b : Nat × Nat} (h : timeLt a b = true) : timeLt b a = false := by
  cases hb : timeLt b a
  · rfl
  · exfalso
    have h1 := (timeLt_iff a b).1 h
    have h2 := (timeLt_iff b a).1 hb
    omega

theorem timeLt_trichotomy (a b : Nat × Nat) :
    timeLt a b = true ∨ timeLt b a = true ∨ a = b := by
  simp only [timeLt_iff]
  rcases a with ⟨a1, a2⟩; rcases b with ⟨b1, b2⟩
  simp only [Prod.mk.injEq]
  omega

/-! ### Python dictionaries and sets

Association lists with Python `dict` semantics: updating an existing key
replaces it in place, a fresh key is appended.  Sets are duplicate-free
lists in insertion order (`add` appends if absent, `remove` raises
`KeyError` if absent, like Python's `set.remove`). -/

/-- Python `d.get(k, None)` / `d.get(k)`. -/
def dGet {K V : Type} [BEq K] (d : List (K × V)) (k : K) : Option V :=
  match d.find? (fun p => p.1 == k) with
  | some p => some p.2
  | none => none

/-- Python `d[k]`, raising `KeyError` when the key is missing. -/
def dGetE {K V : Type} [BEq K] (d : List (K × V)) (k : K) : Except String V :=
  match dGet d k with
  | some v => .ok v
  | none => .error "KeyError"

/-- Python `d[k] = v`. -/
def dSet {K V : Type} [BEq K] (d : List (K × V)) (k : K) (v : V) : List (K × V) :=
  match d with
  | [] => [(k, v)]
  | p :: rest => if p.1 == k then (k, v) :: rest else p :: dSet rest k v

/-- Python `d.pop(k)` with no default, raising `KeyError` when the key is missing. -/
def dPopE {K V : Type} [BEq K] (d : List (K × V)) (k : K) : Except String (List (K × V)) :=
  match d with
  | [] => .error "KeyError"
  | p :: rest =>
    if p.1 == k then .ok rest
    else (dPopE rest k).map (fun r => p :: r)

/-- Python `k in d` for a dict. -/
def dMem {K V : Type} [BEq K] (d : List (K × V)) (k : K) : Bool :=
  (dGet d k).isSome

/-- Python `s.add(x)` for a set. -/
def sAdd {A : Type} [BEq A] (s : List A) (x : A) : List A :=
  if s.contains x then s else s ++ [x]

/-- Python `s.remove(x)` for a set, raising `KeyError` when absent. -/
def sRemoveE {A : Type} [BEq A] (s : List A) (x : A) : Except String (List A) :=
  if s.contains x then .ok (s.eraseP (fun a => a == x)) else .error "KeyError"

deriving instance DecidableEq for Except

end CRDTFS

namespace CRDTFS

/-! ### Content-addressed DAG nodes (`merkle_crdt.py`)

`MerkleCRDT.new_node` feeds each `value` string and then each child hash
(in sorted order) to sha1.  Under the spec's collision-freeness assumption
a hash is exactly that data, so it is modelled by an injective
constructor.  All child sets built by the code paths verified here have
at most two elements and are supplied in a canonical order. -/

inductive Hash where
  | mk (value : List String) (children : List Hash)

mutual

def Hash.beq : Hash → Hash → Bool
  | .mk v1 c1, .mk v2 c2 => v1 == v2 && Hash.beqList c1 c2

def Hash.beqList : List Hash → List Hash → Bool
  | [], [] => true
  | a :: as, b :: bs => Hash.beq a b && Hash.beqList as bs
  | _, _ => false

end

instance : BEq Hash := ⟨Hash.beq⟩

mutual

theorem Hash.beq_iff : ∀ a b : Hash, Hash.beq a b = true ↔ a = b
  | .mk v1 c1, .mk v2 c2 => by
    simp only [Hash.beq, Bool.and_eq_true, beq_iff_eq, Hash.beqList_iff c1 c2,
      Hash.mk.injEq]

theorem Hash.beqList_iff : ∀ a b : List Hash, Hash.beqList a b = true ↔ a = b
  | [], [] => by simp [Hash.beqList]
  | [], _ :: _ => by simp [Hash.beqList]
  | _ :: _, [] => by simp [Hash.beqList]
  | a :: as, b :: bs => by
    simp only [Hash.beqList, Bool.and_eq_true, Hash.beq_iff a b,
      Hash.beqList_iff as bs, List.cons.injEq]

end

instance : LawfulBEq Hash where
  eq_of_beq h := (Hash.beq_iff _ _).1 h
  rfl := (Hash.beq_iff _ _).2 rfl

instance : DecidableEq Hash := fun a b =>
  decidable_of_iff (Hash.beq a b = true) (Hash.beq_iff a b)

/-- Embedding of `MerkleNode` from `merkle_crdt.py`. -/
structure MerkleNode where
  hash_value : Hash
  replica : Nat
  height : Nat
  value : List String
  children : List Hash
deriving DecidableEq

/-- Embedding of `MerkleTree` from `merkle_crdt.py`: a root hash plus the hash-keyed
node dictionary. -/
structure MerkleTree where
  root : Hash
  nodes : List (Hash × MerkleNode)
deriving DecidableEq

/-- The data of a `MerkleCRDT` instance: the tree, the `applied_ops` set,
the replica id, and the subclass-specific derived state `δ`. -/
structure CRDTState (δ : Type) where
  tree : MerkleTree
  applied : List Hash
  replica : Nat
  derived : δ
deriving DecidableEq

/-- Embedding of `MerkleCRDT.new_node`: the hash is computed from the value strings and
the child hashes; the height is `max(child heights or [0]) + 1`, looked up
in `self.tree.nodes` (raising `KeyError` on a missing child). -/
def new_node (nodes : List (Hash × MerkleNode)) (replica : Nat)
    (value : List String) (children : List Hash) : Except String MerkleNode := do
  let hs ← children.mapM (fun c => (dGetE nodes c).map (fun n => n.height))
  let height := hs.foldl max 0 + 1
  .ok ⟨Hash.mk value children, replica, height, value, children⟩

/-- Embedding of `MerkleCRDT.put_node`. -/
def put_node (t : MerkleTree) (n : MerkleNode) : MerkleTree :=
  { t with nodes := dSet t.nodes n.hash_value n }

/-- Embedding of `MerkleCRDT.__init__`: fresh `applied_ops`, a genesis node with empty
value and no children, which becomes the root. -/
def crdtInit {δ : Type} (replica : Nat) (d : δ) : CRDTState δ :=
  let g : MerkleNode := ⟨Hash.mk [] [], replica, 1, [], []⟩
  ⟨⟨Hash.mk [] [], [(Hash.mk [] [], g)]⟩, [], replica, d⟩

/-! `MerkleCRDT.topo`: post-order DFS pruned at `applied_ops`, appending
visited nodes to `l` and marking them applied.  The source recurses
through `self.tree.nodes[child]`; here the recursion is driven by the
child hash's own structure (which coincides with the stored node's
`children` for well-formed maps, since the hash determines the children)
while the dictionary lookups and their `KeyError`s are kept as in the
source. -/

mutual

def topoVisit (nodes : List (Hash × MerkleNode)) :
    Hash → List Hash × List MerkleNode → Except String (List Hash × List MerkleNode)
  | Hash.mk v cs, st => do
    let n ← dGetE nodes (Hash.mk v cs)
    if st.1.contains n.hash_value then .ok st
    else do
      let st2 ← topoChildren nodes cs st
      .ok (st2.1 ++ [n.hash_value], st2.2 ++ [n])

def topoChildren (nodes : List (Hash × MerkleNode)) :
    List Hash → List Hash × List MerkleNode → Except String (List Hash × List MerkleNode)
  | [], st => .ok st
  | c :: rest, st => do
    let st2 ← topoVisit nodes c st
    topoChildren nodes rest st2

end

/-! The local reachability check `rec` inside `MerkleCRDT.add_root`:
returns whether the local root is reachable from `h`, pruning at
`applied_ops`, and raising `KeyError` on a hash absent from the node
dictionary (the commented-out "IMPOSSIBLE" branch in the source does not
prevent the subsequent lookup).  As with `topo`, the recursion is driven
by the hash structure, which for well-formed maps coincides with the
stored `children`. -/

mutual

def recVisit (nodes : List (Hash × MerkleNode)) (root : Hash) :
    Hash → List Hash → Except String Bool
  | Hash.mk v cs, applied =>
    if (Hash.mk v cs) == root then .ok true
    else if applied.contains (Hash.mk v cs) then .ok false
    else do
      let _n ← dGetE nodes (Hash.mk v cs)
      recAny nodes root cs applied

def recAny (nodes : List (Hash × MerkleNode)) (root : Hash) :
    List Hash → List Hash → Except String Bool
  | [], _ => .ok false
  | c :: rest, applied => do
    let b ← recVisit nodes root c applied
    if b then .ok true else recAny nodes root rest applied

end

/-- Stable insertion of `x` into a list sorted by `key` (after all
elements whose key is `≤ key x`). -/
def insertSorted {α : Type} (key : α → Nat × Nat) (x : α) : List α → List α
  | [] => [x]
  | y :: ys => if timeLt (key x) (key y) then x :: y :: ys else y :: insertSorted key x ys

/-- Model of Python's stable `list.sort(key=...)` for the keys used by the
source (`(height, replica)` pairs). -/
def sortByKey {α : Type} (key : α → Nat × Nat) (l : List α) : List α :=
  l.foldl (fun acc x => insertSorted key x acc) []

/-- Embedding of `MerkleCRDT.add_root`, with the subclass `apply_operation` passed in
as `applyOp` (the base class applies the batch one operation at a time).
Semantics as in the source: no-op when the candidate is applied; else
compute `should_use_old_root` via `rec`, replay the topological listing
of the candidate sorted by `(height, replica)`, then either adopt the
candidate root verbatim or create a fresh empty-value merge node whose
children are the candidate and the local root. -/
def add_root {δ : Type} (applyOp : δ → List String → Except String δ)
    (s : CRDTState δ) (root : Hash) : Except String (CRDTState δ) :=
  if s.applied.contains root then .ok s
  else do
    let su ← recVisit s.tree.nodes s.tree.root root s.applied
    let (applied2, l) ← topoVisit s.tree.nodes root (s.applied, [])
    let l2 := sortByKey (fun n => (n.height, n.replica)) l
    let d2 ← l2.foldlM (fun d n => applyOp d n.value) s.derived
    if su then
      .ok { s with
              applied := applied2
              derived := d2
              tree := { s.tree with root := root } }
    else do
      let nn ← new_node s.tree.nodes s.replica [] [root, s.tree.root]
      .ok { s with
              applied := applied2
              derived := d2
              tree := { root := nn.hash_value, nodes := dSet s.tree.nodes nn.hash_value nn } }

/-! ### The LWW register (`merkle_lww.py`) -/

/-- The derived state of a `MerkleLWWRegister`: `won`, `value`, `dirty`. -/
structure LWWD where
  won : Nat × Nat
  value : Bytes
  dirty : Bool
deriving DecidableEq

abbrev LWWState := CRDTState LWWD

/-- Embedding of `MerkleLWWRegister.apply_operation`: empty operations are skipped;
otherwise parse `(int(op[0]), int(op[1]))` and on a strictly greater pair
replace the value with `b64decode(op[2])`.  An operation of length one
raises `IndexError` at `op[1]`; one of length two raises `IndexError` at
`op[2]` only when the comparison succeeds, as in Python. -/
def lwwApply (d : LWWD) (op : List String) : Except String LWWD :=
  match op with
  | [] => .ok d
  | [_] => .error "IndexError"
  | h :: r :: rest =>
    if timeLt d.won (parseNat h, parseNat r) then
      match rest with
      | v :: _ => .ok { d with value := b64decode v, won := (parseNat h, parseNat r) }
      | [] => .error "IndexError"
    else .ok d

/-- Embedding of `MerkleLWWRegister.__init__`. -/
def lwwInit (replica : Nat) : LWWState := crdtInit replica ⟨(0, 0), [], false⟩

/-- Embedding of `MerkleLWWRegister.write`: stage the value and mark dirty. -/
def lwwWrite (s : LWWState) (val : Bytes) : LWWState :=
  { s with derived := { s.derived with dirty := true, value := val } }

/-- Embedding of `MerkleLWWRegister._cut_root`: when dirty, bump `won`, materialize a
node `[str(won[0]), str(won[1]), b64encode(value)]` whose single child is
the current root, record it in `applied_ops`, and advance the root.  The
dirty flag is not touched. -/
def lwwCutRoot (s : LWWState) : Except String LWWState :=
  if s.derived.dirty then do
    let won2 := (s.derived.won.1 + 1, s.replica)
    let nn ← new_node s.tree.nodes s.replica
        [strNat won2.1, strNat won2.2, b64encode s.derived.value] [s.tree.root]
    .ok { s with
            derived := { s.derived with won := won2 }
            tree := { root := nn.hash_value, nodes := dSet s.tree.nodes nn.hash_value nn }
            applied := sAdd s.applied nn.hash_value }
  else .ok s

/-- Embedding of `MerkleCRDT.fsync`: serialize the whole tree to the instance's file
(the disk contents are modelled as the tree itself). -/
def crdtFsync {δ : Type} (s : CRDTState δ) : MerkleTree := s.tree

/-- Embedding of `MerkleCRDT.fload` for a freshly constructed `MerkleLWWRegister` on
the same file: replace `self.tree` by the deserialized tree, list it
topologically from the root (`KeyError` when the root is missing), sort
by `(height, replica)` and replay every operation. -/
def lwwFload (replica : Nat) (t : MerkleTree) : Except String LWWState := do
  let s0 := lwwInit replica
  let (applied2, l) ← topoVisit t.nodes t.root (s0.applied, [])
  let l2 := sortByKey (fun n => (n.height, n.replica)) l
  let d2 ← l2.foldlM (fun d n => lwwApply d n.value) s0.derived
  .ok { tree := t, applied := applied2, replica := replica, derived := d2 }

/-- Embedding of `MerkleLWWRegister.read`. -/
def lwwRead (s : LWWState) : Bytes := s.derived.value

end CRDTFS

namespace CRDTFS

/-! ### The K-Tree (`merkle_ktree.py`)

`ROOT_ID = pyfuse3.ROOT_INODE = 1`, `TRASH_ID = 3`.  The derived state is
the four tables `ktree`, `child`, `oplog`, `childlogs` plus the DAG. -/

/-- An `oplog` record `(time, old_parent_meta, new_parent, new_name, child)`. -/
structure OpRec where
  time : Nat × Nat
  oldp : Option (Nat × String)
  par : Nat
  meta : String
  child : Nat
deriving DecidableEq

/-- An `ops_processed` entry `(time, parent, meta, child)`. -/
structure ProcOp where
  time : Nat × Nat
  par : Nat
  meta : String
  child : Nat
deriving DecidableEq

/-- The state of a `MerkleKTree` instance. -/
structure KTreeState where
  tree : MerkleTree
  applied : List Hash
  replica : Nat
  ktree : List (Nat × (Nat × String))
  child : List (Nat × List (String × Nat))
  oplog : List OpRec
  childlogs : List (Nat × List Nat)
deriving DecidableEq

/-- The working data mutated inside `apply_operations`. -/
structure KTWork where
  ktree : List (Nat × (Nat × String))
  child : List (Nat × List (String × Nat))
  oplog : List OpRec
  childlogs : List (Nat × List Nat)
  visited : List Nat
  opsp : List ProcOp
deriving DecidableEq

/-- Python's `==` between a list and an int: always `False` (and no
exception).  The undo loop compares `self.childlogs[item[4]]`, a list,
with `len(self.oplog)`, an int. -/
def pyListEqInt (l : List Nat) (n : Nat) : Bool :=
  (fun _ _ => false) l n

/-- The recursive call of `MerkleKTree.ancestor` receives the raw
`(name, inode)` tuple stored in `self.child[parent]` as its `parent`
argument.  In that call the body's two tests are trivially decided
(`parent == child` compares a tuple with an int, `parent not in
self.child` tests a tuple against int keys), so the call falls through
to `return False` without recursing further; we unroll that one level. -/
def ancestorT (childT : List (Nat × List (String × Nat))) (x : String × Nat) (c : Nat) :
    Bool :=
  (fun _ _ _ => false) childT x c

/-- Embedding of `MerkleKTree.ancestor` on the int inode passed by
`apply_operations`. -/
def ancestor (childT : List (Nat × List (String × Nat))) (p : Nat) (c : Nat) : Bool :=
  if p == c then true
  else
    match dGet childT p with
    | none => false
    | some cs => cs.any (fun x => ancestorT childT x c)

/-- Parse one incoming operation `[(int(i[0]), int(i[1])), int(i[2]),
i[3], int(i[4])]`; a nonempty list shorter than five elements raises
`IndexError`. -/
def parseOp : List String → Except String ProcOp
  | h :: r :: p :: m :: c :: _ =>
    .ok ⟨(parseNat h, parseNat r), parseNat p, m, parseNat c⟩
  | _ => .error "IndexError"

/-- Turn an `Option` into the `Except` a Python subscript raises. -/
def exceptOf {α : Type} (o : Option α) (e : String) : Except String α :=
  match o with
  | some a => .ok a
  | none => .error e

/-- The undo phase, structured over the reversed `oplog` (so that the
Python `self.oplog.pop()` from the end is the head of `rev` and the
remaining log is `revRest.reverse`): while the last `oplog` entry's time
exceeds the last `ops_processed` time, pop it, try to pop `childlogs`
(dead code: a list is compared with an int), remove the new edge
(`KeyError` when it was never inserted, e.g. for a record kept by the
ancestor guard), restore the old mapping, and push the record onto
`ops_processed`.  The `oplog` field is reconstructed on exit. -/
def undoGo : List OpRec → KTWork → Except String KTWork
  | [], w => .ok { w with oplog := [] }
  | item :: revRest, w =>
    match w.opsp.getLast? with
    | none => .error "IndexError"
    | some lastOp =>
      if timeLt lastOp.time item.time then do
        let cl ← dGetE w.childlogs item.child
        let childlogs2 :=
          if pyListEqInt cl revRest.length then dSet w.childlogs item.child cl.dropLast
          else w.childlogs
        let cs ← dGetE w.child item.par
        let cs2 ← sRemoveE cs (item.meta, item.child)
        let child2 := dSet w.child item.par cs2
        let tcv ← match item.oldp with
          | some op => do
            let ktree2 := dSet w.ktree item.child op
            let ocs ← dGetE child2 op.1
            .ok (ktree2, dSet child2 op.1 (sAdd ocs (op.2, item.child)), sAdd w.visited op.1)
          | none => do
            let ktree2 ← dPopE w.ktree item.child
            .ok (ktree2, child2, w.visited)
        undoGo revRest
          { ktree := tcv.1, child := tcv.2.1, oplog := [],
            childlogs := childlogs2, visited := tcv.2.2,
            opsp := w.opsp ++ [⟨item.time, item.par, item.meta, item.child⟩] }
      else .ok { w with oplog := (item :: revRest).reverse }

/-- Embedding of `MerkleKTree.apply_operations`'s undo loop. -/
def undoLoop (w : KTWork) : Except String KTWork :=
  undoGo w.oplog.reverse w

/-- The redo phase: replay `ops_processed` in order, skipping consecutive
duplicates, appending an `oplog` record capturing the before-state, and
updating the tables unless the ancestor guard fires. -/
def redoLoop : KTWork → Option ProcOp → List ProcOp → Except String KTWork
  | w, _, [] => .ok w
  | w, prev, v :: rest =>
    if prev == some v then redoLoop w (some v) rest
    else do
      let oldp := dGet w.ktree v.child
      let oplog2 := w.oplog ++ [⟨v.time, oldp, v.par, v.meta, v.child⟩]
      let child2 := if dMem w.child v.child then w.child else dSet w.child v.child []
      if ancestor child2 v.child v.par then
        redoLoop { w with oplog := oplog2, child := child2 } (some v) rest
      else do
        let cls := if dMem w.childlogs v.child then w.childlogs else dSet w.childlogs v.child []
        let cl ← dGetE cls v.child
        let childlogs2 := dSet cls v.child (cl ++ [oplog2.length])
        let ktree2 := dSet w.ktree v.child (v.par, v.meta)
        let child3 ← match oldp with
          | some op => do
            let ocs ← dGetE child2 op.1
            if ocs.contains (op.2, v.child) then
              .ok (dSet child2 op.1 (ocs.eraseP (fun a => a == (op.2, v.child))))
            else .ok child2
          | none => .ok child2
        let child4 := if dMem child3 v.par then child3 else dSet child3 v.par []
        let ncs ← dGetE child4 v.par
        let child5 := dSet child4 v.par (sAdd ncs (v.meta, v.child))
        redoLoop { w with
                     ktree := ktree2
                     child := child5
                     oplog := oplog2
                     childlogs := childlogs2
                     visited := sAdd w.visited v.par } (some v) rest

/-- Group the children of one parent by name:
`metas : name -> set of inodes` and the set of names seen twice. -/
def buildMetas (cs : List (String × Nat)) : List (String × List Nat) × List String :=
  cs.foldl
    (fun acc c =>
      match dGet acc.1 c.1 with
      | some st => (dSet acc.1 c.1 (sAdd st c.2), sAdd acc.2 c.1)
      | none => (dSet acc.1 c.1 [c.2], acc.2))
    ([], [])

/-- The sort key `self.oplog[self.childlogs[x][-1]][0]` used on name
competitors (`KeyError` on a missing `childlogs` entry, `IndexError` on
an empty entry or an out-of-range `oplog` index). -/
def childKey (w : KTWork) (x : Nat) : Except String (Nat × Nat) := do
  let cl ← dGetE w.childlogs x
  let idx ← exceptOf cl.getLast? "IndexError"
  let r ← exceptOf (w.oplog.get? idx) "IndexError"
  .ok r.time

/-- Python's `in` on lists/strings: contiguous-substring containment. -/
def listIn {α : Type} [BEq α] (n : List α) : List α → Bool
  | [] => n.isEmpty
  | a :: rest => n.isPrefixOf (a :: rest) || listIn n rest

/-- Python's `needle in hay` for strings. -/
def strIn (needle hay : String) : Bool :=
  listIn needle.toList hay.toList

/-- The loser's replacement name `f"{meta}_{last_op[0][1]}_{i}"` with the
smallest `i` not making `s in meta` true.  Since `s` strictly extends
`meta`, the Python substring test is false already at `i = 0` and the
while-loop body never runs; the (unreachable) looping case is surfaced
as an error. -/
def disambig (mname : String) (rep : Nat) : Except String String :=
  let s := mname ++ "_" ++ strNat rep ++ "_" ++ strNat 0
  if strIn s mname then .error "NonTermination" else .ok s

/-- The name-conflict pass at the end of `apply_operations`: for every
visited non-TRASH parent, group children by name, sort competitors by the
time of their most recent recorded move, keep the first and emit a rename
move for each other competitor. -/
def conflictMoves (w : KTWork) : Except String (List (Nat × String × Nat)) :=
  w.visited.foldlM
    (fun acc parent =>
      if parent == 3 then .ok acc
      else do
        let cs := (dGet w.child parent).getD []
        let ms := buildMetas cs
        ms.2.foldlM
          (fun acc2 mname => do
            let elems ← dGetE ms.1 mname
            let decorated ← elems.mapM (fun x => (childKey w x).map (fun t => (x, t)))
            let sortedc := (sortByKey (fun p => p.2) decorated).map (fun p => p.1)
            (sortedc.drop 1).foldlM
              (fun acc3 c => do
                let cl ← dGetE w.childlogs c
                let idx ← exceptOf cl.getLast? "IndexError"
                let lastOp ← exceptOf (w.oplog.get? idx) "IndexError"
                let sname ← disambig mname lastOp.time.2
                .ok (acc3 ++ [(lastOp.par, sname, c)]))
              acc2)
          acc)
    []

/-- Embedding of `MerkleKTree.apply_operations`: parse the reversed nonempty incoming
operations, undo, sort by time, redo, then resolve name conflicts by
emitting fresh local moves, each of which goes through `self.move` and
hence recursively through `apply_operation`.  The body of `move` is
inlined at the recursive call site so that the recursion is structural
on `fuel`, which is spent only when a conflict move is emitted. -/
def apply_operations : Nat → KTreeState → List (List String) →
    Except String KTreeState
  | fuel, s, ops =>
    if ops.isEmpty then .ok s
    else do
      let opsp0 ← ((ops.reverse).filter (fun i => i.length != 0)).mapM parseOp
      let w0 : KTWork := ⟨s.ktree, s.child, s.oplog, s.childlogs, [], opsp0⟩
      let w1 ← undoLoop w0
      let sorted := sortByKey (fun p => p.time) w1.opsp
      let w2 ← redoLoop { w1 with opsp := sorted } none sorted
      let newMoves ← conflictMoves w2
      let s2 : KTreeState :=
        { tree := s.tree, applied := s.applied, replica := s.replica,
          ktree := w2.ktree, child := w2.child, oplog := w2.oplog, childlogs := w2.childlogs }
      match fuel with
      | 0 => if newMoves.isEmpty then .ok s2 else .error "Fuel"
      | fuel2 + 1 =>
        newMoves.foldlM
          (fun st mv => do
            -- `self.move(move)`, inlined
            let root ← dGetE st.tree.nodes st.tree.root
            let newOp := [strNat (root.height + 1), strNat st.replica,
                          strNat mv.1, mv.2.1, strNat mv.2.2]
            let st2 ← apply_operations fuel2 st [newOp]
            let nn ← new_node st2.tree.nodes st2.replica newOp [st2.tree.root]
            .ok { st2 with
                    tree := { root := nn.hash_value,
                              nodes := dSet st2.tree.nodes nn.hash_value nn } })
          s2

/-- Embedding of `MerkleKTree.move`: build the operation value from the DAG root's
height and the local replica, apply it locally, then materialize the DAG
node (child: the previous root) and advance the root. -/
def move (fuel : Nat) (s : KTreeState) (op : Nat × String × Nat) :
    Except String KTreeState := do
  let root ← dGetE s.tree.nodes s.tree.root
  let newOp := [strNat (root.height + 1), strNat s.replica, strNat op.1, op.2.1, strNat op.2.2]
  let s2 ← apply_operations fuel s [newOp]
  let nn ← new_node s2.tree.nodes s2.replica newOp [s2.tree.root]
  .ok { s2 with tree := { root := nn.hash_value, nodes := dSet s2.tree.nodes nn.hash_value nn } }

/-- Embedding of `MerkleKTree.__init__`: the base constructor's genesis DAG, empty
tables, then `move((0, "root", 1))`. -/
def ktreeInit (fuel : Nat) (replica : Nat) : Except String KTreeState :=
  let g : MerkleNode := ⟨Hash.mk [] [], replica, 1, [], []⟩
  let s0 : KTreeState :=
    { tree := ⟨Hash.mk [] [], [(Hash.mk [] [], g)]⟩, applied := [], replica := replica,
      ktree := [], child := [], oplog := [], childlogs := [] }
  move fuel s0 (0, "root", 1)

/-- Embedding of `MerkleKTree.mkdir` (the random inode draw, bit 63 clear, is passed
in as `rand`). -/
def ktreeMkdir (fuel : Nat) (s : KTreeState) (parent : Nat) (name : String) (rand : Nat) :
    Except String KTreeState :=
  move fuel s (parent, name, rand)

/-- Embedding of `MerkleKTree.mkf` (the random inode draw, bit 63 set, is passed in as
`rand`). -/
def ktreeMkf (fuel : Nat) (s : KTreeState) (parent : Nat) (name : String) (rand : Nat) :
    Except String KTreeState :=
  move fuel s (parent, name, rand)

/-- Embedding of `MerkleKTree.rename`. -/
def ktreeRename (fuel : Nat) (s : KTreeState) (id : Nat) (npar : Nat) (nname : String) :
    Except String KTreeState :=
  move fuel s (npar, nname, id)

/-- Embedding of `MerkleKTree.remove`: a move into TRASH under a random name. -/
def ktreeRemove (fuel : Nat) (s : KTreeState) (id : Nat) (rand : Nat) :
    Except String KTreeState :=
  move fuel s (3, strNat rand, id)

end CRDTFS

namespace CRDTFS

/-! ### The inode store (`inode_store.py`, base class `InodeStore`) -/

/-- Embedding of `InodeStore` state relevant to change tracking: `timed_ops`, a
`SortedSet` of `(epoch_seconds, inode)` pairs (kept here as a sorted
duplicate-free list), and `times : inode -> last epoch`. -/
structure InodeStoreState where
  timed_ops : List (Nat × Nat)
  times : List (Nat × Nat)
deriving DecidableEq

/-- Embedding of `SortedSet.add`: ordered insertion, no duplicates. -/
def ssAdd (x : Nat × Nat) : List (Nat × Nat) → List (Nat × Nat)
  | [] => [x]
  | y :: ys => if timeLt x y then x :: y :: ys else if x == y then y :: ys else y :: ssAdd x ys

/-- Embedding of `InodeStore.write` (the clock reading `int(now.timestamp())` is
passed in as `now`): drop the inode's previous `timed_ops` entry if it
is tracked, insert `(now, inode)`, update `times`, return `len(buf)`.
`SortedSet.remove` raises on a missing element. -/
def inodeWrite (s : InodeStoreState) (inode : Nat) (buf : Bytes) (now : Nat) :
    Except String (InodeStoreState × Nat) := do
  let timed2 ← match dGet s.times inode with
    | some t => sRemoveE s.timed_ops (t, inode)
    | none => .ok s.timed_ops
  let timed3 := ssAdd (now, inode) timed2
  .ok (⟨timed3, dSet s.times inode now⟩, buf.length)

/-- Embedding of `InodeStore.changes_since`: `list(self.timed_ops.irange((time, 0)))`
paired with the current clock.  On the sorted set, `irange((t, 0))`
enumerates in order every element lexicographically `≥ (t, 0)`. -/
def changes_since (s : InodeStoreState) (t : Nat) (now : Nat) :
    List (Nat × Nat) × Nat :=
  (s.timed_ops.filter (fun p => !timeLt p (t, 0)), now)

/-- Python runtime values, used to state what `changes_since` returns
elementwise: the entries of `timed_ops` are 2-tuples, not ints. -/
inductive PyVal where
  | intv (n : Nat)
  | tup (a b : PyVal)
deriving DecidableEq

/-- The first component of `changes_since` as the Python values it
contains. -/
def changes_since_py (s : InodeStoreState) (t : Nat) (now : Nat) : List PyVal :=
  (changes_since s t now).1.map (fun p => PyVal.tup (.intv p.1) (.intv p.2))

/-! ### A spec-side reachability check for the child table

Used to state the tree invariant: `descendantB c fuel a b` holds when
`b` is reachable from `a` by a nonempty path of `child` edges. -/

def descendantB (childT : List (Nat × List (String × Nat))) :
    Nat → Nat → Nat → Bool
  | 0, _, _ => false
  | fuel + 1, a, b =>
    ((dGet childT a).getD []).any (fun c => c.2 == b || descendantB childT fuel c.2 b)

/-! ## Claim C1: arrival-order sensitivity of `apply_operations`

Two concurrent operations: `a = move(1, "x", 20)` at time `(3, 7)` and
`sm = move(1, "n", 1)` at time `(4, 9)` (a move of an inode under
itself, which the ancestor guard skips).  Both singleton-batch arrival
orders are consistent with causal dependencies, yet the outcomes
differ: one succeeds, the other raises `KeyError` while undoing the
skipped record (its `(name, child)` edge was never inserted into
`self.child`). -/

def c1opA : List String := ["3", "7", "1", "x", "20"]

def c1opSM : List String := ["4", "9", "1", "n", "1"]

def c1order1 : Except String KTreeState := do
  let s0 ← ktreeInit 10 5
  let s1 ← apply_operations 10 s0 [c1opA]
  apply_operations 10 s1 [c1opSM]

def c1order2 : Except String KTreeState := do
  let s0 ← ktreeInit 10 5
  let s1 ← apply_operations 10 s0 [c1opSM]
  apply_operations 10 s1 [c1opA]

/-! ## Claims C2/C3: the broken ancestor guard

Scenario: `mkdir(1, "a") -> 10`, `mkdir(10, "b") -> 11`, then
`rename(10, 11, "a2")`, i.e. a move whose child (10) is a strict
ancestor of its new parent (11). -/

def c23pre : Except String KTreeState := do
  let s0 ← ktreeInit 10 5
  let s1 ← ktreeMkdir 10 s0 1 "a" 10
  ktreeMkdir 10 s1 10 "b" 11

def c23post : Except String KTreeState :=
  c23pre >>= fun s2 => ktreeRename 10 s2 10 11 "a2"

/-! ## Claim C4: name-conflict resolution crashes

`mkdir(1, "f") -> 10` followed by another `mkdir(1, "f") -> 11`: the
conflict pass evaluates `self.oplog[self.childlogs[11][-1]]` where the
stored index is `len(self.oplog)` at append time (one past the record),
which for the freshest competitor is out of range. -/

def c4scenario : Except String KTreeState := do
  let s0 ← ktreeInit 10 5
  let s1 ← ktreeMkdir 10 s0 1 "f" 10
  ktreeMkdir 10 s1 1 "f" 11

/-! ## Claim C8: `/bulk_root` with an unknown hash

`APIHandler.inform_of_root` calls `crdt.add_root(root)` with no
exception handling; `add_root` on a hash absent from `tree.nodes`
reaches `self.tree.nodes[h]` inside `rec` and raises `KeyError`. -/

def c8candidate : Hash := Hash.mk ["bogus"] []

def c8result : Except String LWWState := add_root lwwApply (lwwInit 5) c8candidate

end CRDTFS

namespace CRDTFS

/-! Intermediate states of the concrete K-Tree scenarios, written out as
literals so that each `apply_operations` step is evaluated exactly once
(the stage lemmas below check each step against the next literal). -/

def hGen : Hash := Hash.mk [] []

def hInit : Hash := Hash.mk ["2", "5", "0", "root", "1"] [hGen]

def hA : Hash := Hash.mk ["3", "5", "1", "a", "10"] [hInit]

def hAB : Hash := Hash.mk ["4", "5", "10", "b", "11"] [hA]

def hCyc : Hash := Hash.mk ["5", "5", "11", "a2", "10"] [hAB]

def hF : Hash := Hash.mk ["3", "5", "1", "f", "10"] [hInit]

def nGen : MerkleNode := ⟨hGen, 5, 1, [], []⟩

def nInit : MerkleNode := ⟨hInit, 5, 2, ["2", "5", "0", "root", "1"], [hGen]⟩

def nA : MerkleNode := ⟨hA, 5, 3, ["3", "5", "1", "a", "10"], [hInit]⟩

def nAB : MerkleNode := ⟨hAB, 5, 4, ["4", "5", "10", "b", "11"], [hA]⟩

def nCyc : MerkleNode := ⟨hCyc, 5, 5, ["5", "5", "11", "a2", "10"], [hAB]⟩

def nF : MerkleNode := ⟨hF, 5, 3, ["3", "5", "1", "f", "10"], [hInit]⟩

def kInit : KTreeState :=
  { tree := ⟨hInit, [(hGen, nGen), (hInit, nInit)]⟩, applied := [], replica := 5,
    ktree := [(1, (0, "root"))],
    child := [(1, []), (0, [("root", 1)])],
    oplog := [⟨(2, 5), none, 0, "root", 1⟩],
    childlogs := [(1, [1])] }

def c1aMid : KTreeState :=
  { kInit with
      ktree := [(1, (0, "root")), (20, (1, "x"))]
      child := [(1, [("x", 20)]), (0, [("root", 1)]), (20, [])]
      oplog := [⟨(2, 5), none, 0, "root", 1⟩, ⟨(3, 7), none, 1, "x", 20⟩]
      childlogs := [(1, [1]), (20, [2])] }

def c1aFinal : KTreeState :=
  { c1aMid with
      oplog := [⟨(2, 5), none, 0, "root", 1⟩, ⟨(3, 7), none, 1, "x", 20⟩,
                ⟨(4, 9), some (0, "root"), 1, "n", 1⟩] }

def c1bMid : KTreeState :=
  { kInit with
      oplog := [⟨(2, 5), none, 0, "root", 1⟩, ⟨(4, 9), some (0, "root"), 1, "n", 1⟩] }

def c23aSt : KTreeState :=
  { tree := ⟨hA, [(hGen, nGen), (hInit, nInit), (hA, nA)]⟩, applied := [], replica := 5,
    ktree := [(1, (0, "root")), (10, (1, "a"))],
    child := [(1, [("a", 10)]), (0, [("root", 1)]), (10, [])],
    oplog := [⟨(2, 5), none, 0, "root", 1⟩, ⟨(3, 5), none, 1, "a", 10⟩],
    childlogs := [(1, [1]), (10, [2])] }

def c23abSt : KTreeState :=
  { tree := ⟨hAB, [(hGen, nGen), (hInit, nInit), (hA, nA), (hAB, nAB)]⟩,
    applied := [], replica := 5,
    ktree := [(1, (0, "root")), (10, (1, "a")), (11, (10, "b"))],
    child := [(1, [("a", 10)]), (0, [("root", 1)]), (10, [("b", 11)]), (11, [])],
    oplog := [⟨(2, 5), none, 0, "root", 1⟩, ⟨(3, 5), none, 1, "a", 10⟩,
              ⟨(4, 5), none, 10, "b", 11⟩],
    childlogs := [(1, [1]), (10, [2]), (11, [3])] }

def c23cycSt : KTreeState :=
  { tree := ⟨hCyc, [(hGen, nGen), (hInit, nInit), (hA, nA), (hAB, nAB), (hCyc, nCyc)]⟩,
    applied := [], replica := 5,
    ktree := [(1, (0, "root")), (10, (11, "a2")), (11, (10, "b"))],
    child := [(1, []), (0, [("root", 1)]), (10, [("b", 11)]), (11, [("a2", 10)])],
    oplog := [⟨(2, 5), none, 0, "root", 1⟩, ⟨(3, 5), none, 1, "a", 10⟩,
              ⟨(4, 5), none, 10, "b", 11⟩, ⟨(5, 5), some (1, "a"), 11, "a2", 10⟩],
    childlogs := [(1, [1]), (10, [2, 4]), (11, [3])] }

def c4fSt : KTreeState :=
  { tree := ⟨hF, [(hGen, nGen), (hInit, nInit), (hF, nF)]⟩, applied := [], replica := 5,
    ktree := [(1, (0, "root")), (10, (1, "f"))],
    child := [(1, [("f", 10)]), (0, [("root", 1)]), (10, [])],
    oplog := [⟨(2, 5), none, 0, "root", 1⟩, ⟨(3, 5), none, 1, "f", 10⟩],
    childlogs := [(1, [1]), (10, [2])] }

theorem kInit_eval : ktreeInit 10 5 = .ok kInit := by decide

theorem c1a1_eval : apply_operations 10 kInit [c1opA] = .ok c1aMid := by decide

theorem c1a2_eval : apply_operations 10 c1aMid [c1opSM] = .ok c1aFinal := by decide

theorem c1b1_eval : apply_operations 10 kInit [c1opSM] = .ok c1bMid := by decide

theorem c1b2_eval : apply_operations 10 c1bMid [c1opA] = .error "KeyError" := by decide

theorem c23a_eval : ktreeMkdir 10 kInit 1 "a" 10 = .ok c23aSt := by decide

theorem c23ab_eval : ktreeMkdir 10 c23aSt 10 "b" 11 = .ok c23abSt := by decide

theorem c23cyc_eval : ktreeRename 10 c23abSt 10 11 "a2" = .ok c23cycSt := by decide

theorem c4f_eval : ktreeMkdir 10 kInit 1 "f" 10 = .ok c4fSt := by decide

theorem c4err_eval : ktreeMkdir 10 c4fSt 1 "f" 11 = .error "IndexError" := by decide

theorem c23pre_eval : c23pre = .ok c23abSt := by
  simp [c23pre, kInit_eval, c23a_eval, c23ab_eval, Bind.bind, Except.bind]

/-- C1: applying the same two concurrent K-Tree move operations through
`apply_operations` in the two possible (causally unconstrained) arrival
orders does not yield the same final state: one order succeeds (the
self-move is skipped by the ancestor guard), the other raises `KeyError`
while undoing the skipped record, because its `(name, child)` edge was
never inserted into `self.child`. -/
theorem apply_operations_order_dependent :
    c1order1.map (fun s => (dGet s.ktree 20, dGet s.ktree 1))
        = .ok (some (1, "x"), some (0, "root"))
    ∧ c1order2 = .error "KeyError" := by
  have h1 : c1order1 = .ok c1aFinal := by
    simp [c1order1, kInit_eval, c1a1_eval, c1a2_eval, Bind.bind, Except.bind]
  have h2 : c1order2 = .error "KeyError" := by
    simp [c1order2, kInit_eval, c1b1_eval, c1b2_eval, Bind.bind, Except.bind]
  rw [h1, h2]
  exact ⟨by decide, rfl⟩

/-- C2: after `mkdir(1, "a") -> 10`, `mkdir(10, "b") -> 11` and
`rename(10, 11, "a2")`, the child table contains the edges `10 -> 11`
and `11 -> 10`: inode 10 is reachable from itself by a nonempty path,
so `child` contains a cycle and is not a tree rooted at inode 1. -/
theorem ktree_child_table_cycle :
    c23post.map
      (fun s => ((dGet s.child 10).getD []).contains ("b", 11)
        && ((dGet s.child 11).getD []).contains ("a2", 10)
        && descendantB s.child 5 10 10) = .ok true := by
  have h : c23post = .ok c23cycSt := by
    simp [c23post, c23pre_eval, c23cyc_eval, Bind.bind, Except.bind]
  rw [h]
  decide

/-- C3: in the same scenario, inode 10 is an ancestor of inode 11 before
the rename, yet the redo phase applies the state update anyway: the
`ktree` entry of 10 becomes `(11, "a2")` and an index is appended to
`childlogs[10]`, contradicting the claimed skip. -/
theorem ancestor_guard_misses_strict_ancestors :
    c23pre.map (fun s => descendantB s.child 5 10 11) = .ok true
    ∧ c23post.map (fun s => (dGet s.ktree 10, dGet s.childlogs 10))
        = .ok (some (11, "a2"), some [2, 4]) := by
  have h : c23post = .ok c23cycSt := by
    simp [c23post, c23pre_eval, c23cyc_eval, Bind.bind, Except.bind]
  rw [h, c23pre_eval]
  exact ⟨by decide, by decide⟩

/-- C4: creating two children named "f" under the root makes the
name-conflict pass raise `IndexError`: `childlogs` stores
`len(self.oplog)` measured after the append (one past the record), and
for the freshest competitor that index is out of range, so no rename of
a loser ever happens. -/
theorem conflict_resolution_crashes :
    c4scenario = .error "IndexError" := by
  simp [c4scenario, kInit_eval, c4f_eval, c4err_eval, Bind.bind, Except.bind]

/-- C8: `add_root` on a candidate hash absent from the DAG raises
`KeyError` (inside `rec`, which subscripts `self.tree.nodes[h]` right
after the commented-out "IMPOSSIBLE" branch); `inform_of_root` calls it
with no exception handling, so the server-side `/bulk_root` handling
propagates the exception instead of logging and skipping. -/
theorem bulk_root_unknown_hash_raises :
    c8result = .error "KeyError" := by
  exact rfl

/-- C9, counterexample: after a write to inode 7 at clock 5, the first
component of `changes_since(5)` is `[(5, 7)]` — its element is the
2-tuple `(time, inode)` stored in `timed_ops`, not an inode
identifier. -/
theorem changes_since_elements_are_pairs :
    (inodeWrite ⟨[], []⟩ 7 [1] 5).map (fun r => changes_since_py r.1 5 6)
        = .ok [PyVal.tup (.intv 5) (.intv 7)]
    ∧ ∀ n : Nat, PyVal.tup (.intv 5) (.intv 7) ≠ PyVal.intv n := by
  refine ⟨rfl, fun n h => ?_⟩
  cases h

/-- C9, amended: `changes_since(t)` returns the list of
`(modification_time, inode)` pairs of `timed_ops` whose time component
is at or after `t`, together with the supplied clock reading in whole
seconds. -/
theorem changes_since_spec (s : InodeStoreState) (t now : Nat) :
    changes_since s t now = (s.timed_ops.filter (fun p => decide (t ≤ p.1)), now) := by
  unfold changes_since
  refine congrArg (fun l => (l, now)) ?_
  apply List.filter_congr
  intro p _
  rcases p with ⟨a, b⟩
  by_cases h : a < t
  · simp [timeLt, h, Nat.not_le.mpr h]
  · simp [timeLt, h, Nat.not_lt.mp h]

end CRDTFS

namespace CRDTFS

theorem dGet_some_mem {K V : Type} [BEq K] [LawfulBEq K] {d : List (K × V)} {k : K}
    {v : V} (h : dGet d k = some v) : (k, v) ∈ d := by
  induction d with
  | nil => simp [dGet] at h
  | cons p rest ih =>
    rw [dGet, List.find?] at h
    by_cases he : p.1 == k
    · simp only [he] at h
      cases h
      have hpk : p.1 = k := eq_of_beq he
      rw [← hpk, Prod.mk.eta]
      exact List.mem_cons_self _ _
    · simp only [Bool.not_eq_true] at he
      rw [he] at h
      right
      exact ih h

theorem dSet_not_mem {K V : Type} [BEq K] {d : List (K × V)} {k : K} (v : V)
    (h : dMem d k = false) : dSet d k v = d ++ [(k, v)] := by
  induction d with
  | nil => rfl
  | cons p rest ih =>
    rw [dMem, dGet, List.find?] at h
    by_cases he : p.1 == k
    · rw [he] at h
      simp at h
    · simp only [Bool.not_eq_true] at he
      rw [he] at h
      rw [dSet, he]
      simp only [Bool.false_eq_true, if_false, List.cons_append, List.cons.injEq, true_and]
      exact ih h

/-- The child hashes recorded inside a content hash. -/
def Hash.childHashes : Hash → List Hash
  | .mk _ cs => cs

/-- The hash of the node `_cut_root` materializes from state `s`. -/
def lwwCutHash (s : LWWState) : Hash :=
  Hash.mk [strNat (s.derived.won.1 + 1), strNat s.replica, b64encode s.derived.value]
    [s.tree.root]

/-- The node `_cut_root` materializes (its height is one above the
current root's). -/
def lwwCutNode (s : LWWState) (rootHeight : Nat) : MerkleNode :=
  ⟨lwwCutHash s, s.replica, rootHeight + 1,
   [strNat (s.derived.won.1 + 1), strNat s.replica, b64encode s.derived.value],
   [s.tree.root]⟩

theorem lwwCutRoot_new_node (s : LWWState) (rn : MerkleNode)
    (hroot : dGet s.tree.nodes s.tree.root = some rn) :
    new_node s.tree.nodes s.replica
        [strNat (s.derived.won.1 + 1), strNat s.replica, b64encode s.derived.value]
        [s.tree.root]
      = .ok (lwwCutNode s rn.height) := by
  rw [new_node]
  simp only [List.mapM, List.mapM.loop, dGetE, hroot, Except.map]
  simp [lwwCutNode, lwwCutHash, Except.bind, Bind.bind, Nat.zero_max, pure, Except.pure]

/-- C10: `_cut_root` never clears the dirty flag.  When the register is
not dirty it is the identity; when it is dirty it leaves `value`,
`dirty` and `replica` untouched, bumps `won` to `(won[0]+1, replica)`,
inserts exactly one new node (its child being the previous root, which
no existing node has as a child, so the content hash is fresh), advances
the root to it and records it in `applied_ops` — so a subsequent call
with no intervening write does all of this again. -/
theorem lwwCutRoot_spec (s : LWWState) (rn : MerkleNode)
    (hroot : dGet s.tree.nodes s.tree.root = some rn)
    (hfresh : ∀ p ∈ s.tree.nodes, ¬ s.tree.root ∈ Hash.childHashes p.1) :
    (s.derived.dirty = false → lwwCutRoot s = .ok s)
    ∧ (s.derived.dirty = true →
        lwwCutRoot s = .ok
          { tree := ⟨lwwCutHash s, s.tree.nodes ++ [(lwwCutHash s, lwwCutNode s rn.height)]⟩,
            applied := sAdd s.applied (lwwCutHash s),
            replica := s.replica,
            derived := ⟨(s.derived.won.1 + 1, s.replica), s.derived.value, s.derived.dirty⟩ }
        ∧ (s.tree.nodes ++ [(lwwCutHash s, lwwCutNode s rn.height)]).length
            = s.tree.nodes.length + 1) := by
  have hmem : dMem s.tree.nodes (lwwCutHash s) = false := by
    cases hm : dMem s.tree.nodes (lwwCutHash s)
    · rfl
    · exfalso
      rw [dMem] at hm
      rcases Option.isSome_iff_exists.mp hm with ⟨v, hv⟩
      have hin := dGet_some_mem hv
      apply hfresh _ hin
      simp [lwwCutHash, Hash.childHashes]
  constructor
  · intro hd
    simp [lwwCutRoot, hd]
  · intro hd
    refine ⟨?_, by simp⟩
    rw [lwwCutRoot, hd]
    simp only [if_true]
    rw [lwwCutRoot_new_node s rn hroot]
    show Except.ok _ = _
    rw [show (lwwCutNode s rn.height).hash_value = lwwCutHash s from rfl]
    rw [dSet_not_mem _ hmem]
    simp [hd]

end CRDTFS

namespace CRDTFS

theorem lwwCutRoot_spec_witness :
    lwwCutRoot (lwwWrite (lwwInit 5) [1, 2]) = .ok
      { tree := ⟨Hash.mk ["1", "5", "0102"] [Hash.mk [] []],
                 [(Hash.mk [] [], ⟨Hash.mk [] [], 5, 1, [], []⟩),
                  (Hash.mk ["1", "5", "0102"] [Hash.mk [] []],
                   ⟨Hash.mk ["1", "5", "0102"] [Hash.mk [] []], 5, 2,
                    ["1", "5", "0102"], [Hash.mk [] []]⟩)]⟩,
        applied := [Hash.mk ["1", "5", "0102"] [Hash.mk [] []]],
        replica := 5,
        derived := ⟨(1, 5), [1, 2], true⟩ } := by
  have h := (lwwCutRoot_spec (lwwWrite (lwwInit 5) [1, 2]) ⟨Hash.mk [] [], 5, 1, [], []⟩
      (by decide) (by decide)).2 (by decide)
  exact h.1.trans (by decide)

/-- C7: on a fresh register, `write(v); cut_root(); fsync()` followed by
`fload()` of a freshly constructed instance over the same file yields
`read() == v`. -/
theorem lww_crash_round_trip (v : Bytes) (r : Nat) (hv : ∀ b ∈ v, b < 256) :
    ((lwwCutRoot (lwwWrite (lwwInit r) v) >>= fun s1 =>
        lwwFload r (crdtFsync s1)).map lwwRead) = .ok v := by
  have hroot : dGet (lwwWrite (lwwInit r) v).tree.nodes (lwwWrite (lwwInit r) v).tree.root
      = some ⟨Hash.mk [] [], r, 1, [], []⟩ := by
    simp [dGet, lwwWrite, lwwInit, crdtInit, List.find?]
  have hfresh : ∀ p ∈ (lwwWrite (lwwInit r) v).tree.nodes,
      ¬ (lwwWrite (lwwInit r) v).tree.root ∈ Hash.childHashes p.1 := by
    intro p hp
    simp [lwwWrite, lwwInit, crdtInit] at hp
    rw [hp]
    simp [Hash.childHashes]
  have hcut := ((lwwCutRoot_spec (lwwWrite (lwwInit r) v) ⟨Hash.mk [] [], r, 1, [], []⟩
      hroot hfresh).2 rfl).1
  rw [hcut]
  have hb64 := b64decode_encode v hv
  simp only [Bind.bind, Except.bind, crdtFsync]
  simp only [lwwFload, lwwInit, crdtInit, lwwWrite, lwwCutHash, lwwCutNode, lwwCutRoot]
  simp only [topoVisit, topoChildren, dGetE, dGet, List.find?, beq_self_eq_true]
  simp only [show ∀ (cs cs2 : List Hash) (a : String) (l : List String),
      (Hash.mk [] cs == Hash.mk (a :: l) cs2) = false from fun _ _ _ _ => rfl]
  simp [sortByKey, insertSorted, timeLt, lwwApply, parseNat_strNat, hb64,
    Except.bind, lwwRead, Except.map, pure, Except.pure, List.foldlM, Bind.bind]

theorem lww_crash_round_trip_witness :
    (∀ b ∈ [104, 105, 106], b < 256)
    ∧ ((lwwCutRoot (lwwWrite (lwwInit 3) [104, 105, 106]) >>= fun s1 =>
        lwwFload 3 (crdtFsync s1)).map lwwRead) = .ok [104, 105, 106] :=
  ⟨by decide, lww_crash_round_trip [104, 105, 106] 3 (by decide)⟩

end CRDTFS

namespace CRDTFS

/-- The `(int(op[0]), int(op[1]))` key of an LWW operation. -/
def opKey : List String → Nat × Nat
  | h :: r :: _ => (parseNat h, parseNat r)
  | _ => (0, 0)

/-- The payload `op[2]` of an LWW operation. -/
def opVal : List String → String
  | _ :: _ :: v :: _ => v
  | _ => ""

/-- The pure effect of `MerkleLWWRegister.apply_operation` on a
well-formed (length ≥ 3) or empty operation. -/
def lwwStep (d : LWWD) (op : List String) : LWWD :=
  match op with
  | h :: r :: v :: _ =>
    if timeLt d.won (parseNat h, parseNat r) then
      ⟨(parseNat h, parseNat r), b64decode v, d.dirty⟩
    else d
  | _ => d

theorem lwwApply_eq_step (d : LWWD) (op : List String) (h : 3 ≤ op.length) :
    lwwApply d op = .ok (lwwStep d op) := by
  match op with
  | a :: b :: c :: rest =>
    rw [lwwApply, lwwStep]
    by_cases hlt : timeLt d.won (parseNat a, parseNat b)
    · simp [hlt]
    · simp [hlt]

theorem foldlM_lwwApply_eq (ops : List (List String)) (d : LWWD)
    (h : ∀ op ∈ ops, 3 ≤ op.length) :
    ops.foldlM lwwApply d = .ok (ops.foldl lwwStep d) := by
  induction ops generalizing d with
  | nil => rfl
  | cons a rest ih =>
    rw [List.foldlM, lwwApply_eq_step d a (h a (List.mem_cons_self a rest))]
    show Except.bind _ _ = _
    rw [Except.bind]
    exact ih (lwwStep d a) (fun op hop => h op (List.mem_cons_of_mem _ hop))

theorem timeLt_trans {a b c : Nat × Nat} (h1 : timeLt a b = true)
    (h2 : timeLt b c = true) : timeLt a c = true := by
  rw [timeLt_iff] at h1 h2 ⊢
  omega

/-- The key/value form of `lwwStep` used for the commutation argument. -/
def stepKV (d : LWWD) (k : Nat × Nat) (v : String) : LWWD :=
  if timeLt d.won k then ⟨k, b64decode v, d.dirty⟩ else d

theorem lwwStep_eq_stepKV (d : LWWD) (op : List String) (h : 3 ≤ op.length) :
    lwwStep d op = stepKV d (opKey op) (opVal op) := by
  match op with
  | a :: b :: c :: rest => rfl

theorem stepKV_comm (d : LWWD) (k1 k2 : Nat × Nat) (v1 v2 : String)
    (hk : k1 ≠ k2) :
    stepKV (stepKV d k1 v1) k2 v2 = stepKV (stepKV d k2 v2) k1 v1 := by
  by_cases h1 : timeLt d.won k1 = true
  · by_cases h2 : timeLt d.won k2 = true
    · rcases timeLt_trichotomy k1 k2 with h12 | h21 | heq
      · have h21f : timeLt k2 k1 = false := timeLt_asymm h12
        simp [stepKV, h1, h2, h12, h21f]
      · have h12f : timeLt k1 k2 = false := timeLt_asymm h21
        simp [stepKV, h1, h2, h21, h12f]
      · exact absurd heq hk
    · have h2f : timeLt d.won k2 = false := by
        cases hx : timeLt d.won k2
        · rfl
        · exact absurd hx h2
      have h12f : timeLt k1 k2 = false := by
        cases hx : timeLt k1 k2
        · rfl
        · exact absurd (timeLt_trans h1 hx) h2
      simp [stepKV, h1, h2f, h12f]
  · have h1f : timeLt d.won k1 = false := by
      cases hx : timeLt d.won k1
      · rfl
      · exact absurd hx h1
    by_cases h2 : timeLt d.won k2 = true
    · have h21f : timeLt k2 k1 = false := by
        cases hx : timeLt k2 k1
        · rfl
        · exact absurd (timeLt_trans h2 hx) h1
      simp [stepKV, h1f, h2, h21f]
    · have h2f : timeLt d.won k2 = false := by
        cases hx : timeLt d.won k2
        · rfl
        · exact absurd hx h2
      simp [stepKV, h1f, h2f]

theorem lwwStep_comm (x y : List String) (hx : 3 ≤ x.length) (hy : 3 ≤ y.length)
    (hk : opKey x ≠ opKey y) (d : LWWD) :
    lwwStep (lwwStep d x) y = lwwStep (lwwStep d y) x := by
  rw [lwwStep_eq_stepKV d x hx, lwwStep_eq_stepKV _ y hy,
      lwwStep_eq_stepKV d y hy, lwwStep_eq_stepKV _ x hx]
  exact stepKV_comm d (opKey x) (opKey y) (opVal x) (opVal y) hk

theorem lwwStep_dirty (d : LWWD) (op : List String) :
    (lwwStep d op).dirty = d.dirty := by
  match op with
  | [] => rfl
  | [_] => rfl
  | [_, _] => rfl
  | a :: b :: c :: rest =>
    rw [lwwStep]
    by_cases h : timeLt d.won (parseNat a, parseNat b) <;> simp [h]

theorem lwwStep_won (d : LWWD) (op : List String) :
    (lwwStep d op).won = d.won ∨ (lwwStep d op).won = opKey op := by
  match op with
  | [] => exact Or.inl rfl
  | [_] => exact Or.inl rfl
  | [_, _] => exact Or.inl rfl
  | a :: b :: c :: rest =>
    rw [lwwStep]
    by_cases h : timeLt d.won (parseNat a, parseNat b)
    · right
      simp [h, opKey]
    · left
      simp [h]

theorem foldl_lwwStep_no_change (l : List (List String)) (d : LWWD)
    (h : ∀ op ∈ l, timeLt d.won (opKey op) = false) :
    l.foldl lwwStep d = d := by
  induction l with
  | nil => rfl
  | cons a rest ih =>
    have ha : lwwStep d a = d := by
      match a with
      | [] => rfl
      | [_] => rfl
      | [_, _] => rfl
      | x :: y :: z :: rest2 =>
        rw [lwwStep]
        have := h (x :: y :: z :: rest2) (List.mem_cons_self _ _)
        rw [opKey] at this
        simp [this]
    rw [List.foldl, ha]
    exact ih (fun op hop => h op (List.mem_cons_of_mem _ hop))

theorem foldl_lwwStep_max (l : List (List String)) (d : LWWD) (m : List String)
    (hm : m ∈ l) (hwf : ∀ op ∈ l, 3 ≤ op.length)
    (hmax : ∀ op ∈ l, op ≠ m → timeLt (opKey op) (opKey m) = true)
    (hwon : timeLt d.won (opKey m) = true) :
    l.foldl lwwStep d = ⟨opKey m, b64decode (opVal m), d.dirty⟩ := by
  induction l generalizing d with
  | nil => cases hm
  | cons a rest ih =>
    by_cases ham : a = m
    · subst ham
      have hstep : lwwStep d a = ⟨opKey a, b64decode (opVal a), d.dirty⟩ := by
        rw [lwwStep_eq_stepKV d a (hwf a (List.mem_cons_self _ _)), stepKV]
        simp [hwon]
      rw [List.foldl, hstep]
      apply foldl_lwwStep_no_change
      intro op hop
      by_cases hopa : op = a
      · rw [hopa]
        exact timeLt_irrefl _
      · exact timeLt_asymm (hmax op (List.mem_cons_of_mem _ hop) hopa)
    · have hmrest : m ∈ rest := by
        cases hm with
        | head => exact absurd rfl ham
        | tail _ h => exact h
      rw [List.foldl]
      have hnext : timeLt (lwwStep d a).won (opKey m) = true := by
        rcases lwwStep_won d a with hw | hw
        · rw [hw]
          exact hwon
        · rw [hw]
          exact hmax a (List.mem_cons_self _ _) ham
      rw [show d.dirty = (lwwStep d a).dirty from (lwwStep_dirty d a).symm]
      exact ih (lwwStep d a) hmrest
        (fun op hop => hwf op (List.mem_cons_of_mem _ hop))
        (fun op hop hne => hmax op (List.mem_cons_of_mem _ hop) hne) hnext

/-- C6: applying a finite set of LWW operations `[h, r, b64(v)]` with
pairwise distinct `(int(h), int(r))` keys through `apply_operation`
yields the same final register state in any order; and when one
operation's key strictly dominates all the others' and the initial
`won`, the register converges to exactly that operation's key and
decoded value (the lexicographic pair comparison breaks height ties by
replica id). -/
theorem lww_register_convergence (s0 : LWWD) (ops1 ops2 : List (List String))
    (hwf : ∀ op ∈ ops1, 3 ≤ op.length)
    (hdist : ops1.Pairwise (fun x y => opKey x ≠ opKey y))
    (hperm : ops1.Perm ops2) :
    ops1.foldlM lwwApply s0 = ops2.foldlM lwwApply s0
    ∧ ∀ m ∈ ops1, (∀ op ∈ ops1, op ≠ m → timeLt (opKey op) (opKey m) = true) →
        timeLt s0.won (opKey m) = true →
        ops1.foldlM lwwApply s0 = .ok ⟨opKey m, b64decode (opVal m), s0.dirty⟩ := by
  have hwf2 : ∀ op ∈ ops2, 3 ≤ op.length := fun op hop => hwf op (hperm.mem_iff.mpr hop)
  constructor
  · rw [foldlM_lwwApply_eq ops1 s0 hwf, foldlM_lwwApply_eq ops2 s0 hwf2]
    have hpair : ∀ x ∈ ops1, ∀ y ∈ ops1, ∀ z, lwwStep (lwwStep z x) y = lwwStep (lwwStep z y) x := by
      intro x hx y hy z
      by_cases hxy : x = y
      · rw [hxy]
      · have hkey : opKey x ≠ opKey y := by
          have hforall := List.Pairwise.forall (fun a b (h : opKey a ≠ opKey b) => h.symm) hdist
          exact hforall hx hy hxy
        exact lwwStep_comm x y (hwf x hx) (hwf y hy) hkey z
    rw [hperm.foldl_eq' hpair s0]
  · intro m hm hmax hwon
    rw [foldlM_lwwApply_eq ops1 s0 hwf,
        foldl_lwwStep_max ops1 s0 m hm hwf hmax hwon]

theorem lww_register_convergence_witness :
    (∀ op ∈ [["2", "1", "01"], ["1", "2", "02"]], 3 ≤ op.length)
    ∧ ([["2", "1", "01"], ["1", "2", "02"]].foldlM lwwApply ⟨(0, 0), [], false⟩
        = [["1", "2", "02"], ["2", "1", "01"]].foldlM lwwApply ⟨(0, 0), [], false⟩)
    ∧ ([["2", "1", "01"], ["1", "2", "02"]].foldlM lwwApply ⟨(0, 0), [], false⟩
        = .ok ⟨(2, 1), [1], false⟩) := by
  have h := lww_register_convergence ⟨(0, 0), [], false⟩
    [["2", "1", "01"], ["1", "2", "02"]] [["1", "2", "02"], ["2", "1", "01"]]
    (by decide) (by decide) (List.Perm.swap _ _ _)
  refine ⟨by decide, h.1, ?_⟩
  have h2 := h.2 ["2", "1", "01"] (by decide) (by decide) (by decide)
  rw [h2]
  decide

end CRDTFS

namespace CRDTFS

/-! ### Specification-side reachability on content hashes

`reaches a b` holds when `b` is `a` or a transitive child of `a`; since a
hash structurally contains its children, this is the DAG reachability of
the spec (root "transitively reaches" a node). -/

mutual

def reaches : Hash → Hash → Bool
  | .mk v cs, t => (Hash.mk v cs == t) || reachesList cs t

def reachesList : List Hash → Hash → Bool
  | [], _ => false
  | c :: rest, t => reaches c t || reachesList rest t

end

theorem reaches_self (h : Hash) : reaches h h = true := by
  match h with
  | .mk v cs =>
    rw [reaches]
    simp

theorem reachesList_exists {cs : List Hash} {t : Hash}
    (h : reachesList cs t = true) : ∃ c ∈ cs, reaches c t = true := by
  induction cs with
  | nil => simp [reachesList] at h
  | cons a rest ih =>
    rw [reachesList, Bool.or_eq_true] at h
    rcases h with h | h
    · exact ⟨a, List.mem_cons_self _ _, h⟩
    · rcases ih h with ⟨c, hc, hr⟩
      exact ⟨c, List.mem_cons_of_mem _ hc, hr⟩

theorem reachesList_of_mem {cs : List Hash} {c t : Hash} (hc : c ∈ cs)
    (h : reaches c t = true) : reachesList cs t = true := by
  induction cs with
  | nil => cases hc
  | cons a rest ih =>
    rw [reachesList, Bool.or_eq_true]
    cases hc with
    | head => exact Or.inl h
    | tail _ hm => exact Or.inr (ih hm)

mutual

theorem reaches_size : ∀ {a b : Hash}, reaches a b = true → sizeOf b ≤ sizeOf a
  | .mk v cs, b, h => by
    rw [reaches, Bool.or_eq_true] at h
    rcases h with h | h
    · rw [eq_of_beq h]
    · have := reachesList_size h
      simp only [Hash.mk.sizeOf_spec]
      omega

theorem reachesList_size : ∀ {cs : List Hash} {b : Hash},
    reachesList cs b = true → sizeOf b ≤ sizeOf cs
  | c :: rest, b, h => by
    rw [reachesList, Bool.or_eq_true] at h
    have hcons : sizeOf (c :: rest) = 1 + sizeOf c + sizeOf rest := by
      simp
    rcases h with h | h
    · have := reaches_size h
      omega
    · have := reachesList_size h
      omega

end

theorem reaches_not_self_child {v : List String} {cs : List Hash} :
    reachesList cs (Hash.mk v cs) = false := by
  cases h : reachesList cs (Hash.mk v cs)
  · rfl
  · exfalso
    have hsz := reachesList_size h
    have : sizeOf (Hash.mk v cs) = 1 + sizeOf v + sizeOf cs := by simp
    omega

mutual

theorem reaches_trans : ∀ {a b c : Hash},
    reaches a b = true → reaches b c = true → reaches a c = true
  | .mk v cs, b, c, hab, hbc => by
    rw [reaches, Bool.or_eq_true] at hab
    rcases hab with h | h
    · rw [eq_of_beq h]
      exact hbc
    · rw [reaches, Bool.or_eq_true]
      exact Or.inr (reachesList_trans h hbc)

theorem reachesList_trans : ∀ {cs : List Hash} {b c : Hash},
    reachesList cs b = true → reaches b c = true → reachesList cs c = true
  | d :: rest, b, c, hab, hbc => by
    rw [reachesList, Bool.or_eq_true] at hab ⊢
    rcases hab with h | h
    · exact Or.inl (reaches_trans h hbc)
    · exact Or.inr (reachesList_trans h hbc)

end

end CRDTFS

namespace CRDTFS

/-- Well-formedness of the node dictionary: each stored node's children
are present (the DAG is closed under reachability, spec §3). -/
def NodesClosed (nodes : List (Hash × MerkleNode)) : Prop :=
  ∀ p ∈ nodes, ∀ c ∈ Hash.childHashes p.1, dMem nodes c = true

/-- Each stored node is keyed by its own hash, and its `children` field
is the child set recorded in the hash (collision-freeness). -/
def NodesConsistent (nodes : List (Hash × MerkleNode)) : Prop :=
  ∀ p ∈ nodes, p.2.hash_value = p.1

/-- Invariant: `applied_ops` is closed under causal predecessors: the children of an
applied node are applied. -/
def AppliedClosed (ap : List Hash) : Prop :=
  ∀ a ∈ ap, ∀ c ∈ Hash.childHashes a, c ∈ ap

theorem dMem_child {nodes : List (Hash × MerkleNode)} (hclosed : NodesClosed nodes)
    {h : Hash} (hm : dMem nodes h = true) :
    ∀ c ∈ Hash.childHashes h, dMem nodes c = true := by
  intro c hc
  rw [dMem] at hm
  rcases Option.isSome_iff_exists.mp hm with ⟨n, hn⟩
  exact hclosed (h, n) (dGet_some_mem hn) c hc

mutual

theorem appliedClosed_reaches (ap : List Hash) (hap : AppliedClosed ap) :
    ∀ (a : Hash), a ∈ ap → ∀ x, reaches a x = true → x ∈ ap
  | .mk v cs, ha, x, hr => by
    rw [reaches, Bool.or_eq_true] at hr
    rcases hr with h | h
    · rw [← eq_of_beq h]
      exact ha
    · exact appliedClosed_reachesList ap hap cs
        (fun c hc => hap _ ha c (by rw [Hash.childHashes]; exact hc)) x h

theorem appliedClosed_reachesList (ap : List Hash) (hap : AppliedClosed ap) :
    ∀ (cs : List Hash), (∀ c ∈ cs, c ∈ ap) → ∀ x, reachesList cs x = true → x ∈ ap
  | c :: rest, hmem, x, hr => by
    rw [reachesList, Bool.or_eq_true] at hr
    rcases hr with h | h
    · exact appliedClosed_reaches ap hap c (hmem c (List.mem_cons_self _ _)) x h
    · exact appliedClosed_reachesList ap hap rest
        (fun d hd => hmem d (List.mem_cons_of_mem _ hd)) x h

end

mutual

theorem recVisit_spec (nodes : List (Hash × MerkleNode)) (root : Hash) (ap : List Hash)
    (hclosed : NodesClosed nodes)
    (hbelow : ∀ a ∈ ap, reaches a root = true → a = root) :
    ∀ (h : Hash), dMem nodes h = true →
      recVisit nodes root h ap = .ok (reaches h root)
  | .mk v cs, hm => by
    rw [recVisit, reaches]
    by_cases hb : (Hash.mk v cs == root) = true
    · simp [hb]
    · rw [Bool.not_eq_true] at hb
      rw [hb]
      simp only [Bool.false_eq_true, if_false, Bool.false_or]
      by_cases hc : ap.contains (Hash.mk v cs) = true
      · rw [hc]
        simp only [if_true]
        have hfalse : reachesList cs root = false := by
          cases hx : reachesList cs root
          · rfl
          · exfalso
            have hmem : Hash.mk v cs ∈ ap := by
              rw [List.contains_iff_exists_mem_beq] at hc
              rcases hc with ⟨a, ha, hba⟩
              rw [eq_of_beq hba]
              exact ha
            have : Hash.mk v cs = root := by
              apply hbelow _ hmem
              rw [reaches, Bool.or_eq_true]
              exact Or.inr hx
            rw [this] at hb
            simp at hb
        rw [hfalse]
      · rw [Bool.not_eq_true] at hc
        rw [hc]
        simp only [Bool.false_eq_true, if_false]
        rw [dGetE]
        rcases Option.isSome_iff_exists.mp hm with ⟨n, hn⟩
        rw [hn]
        show Except.bind (Except.ok n) _ = _
        rw [Except.bind]
        exact recAny_spec nodes root ap hclosed hbelow cs
          (dMem_child hclosed hm)

theorem recAny_spec (nodes : List (Hash × MerkleNode)) (root : Hash) (ap : List Hash)
    (hclosed : NodesClosed nodes)
    (hbelow : ∀ a ∈ ap, reaches a root = true → a = root) :
    ∀ (cs : List Hash), (∀ c ∈ cs, dMem nodes c = true) →
      recAny nodes root cs ap = .ok (reachesList cs root)
  | [], _ => rfl
  | c :: rest, hmem => by
    rw [recAny, reachesList]
    rw [recVisit_spec nodes root ap hclosed hbelow c (hmem c (List.mem_cons_self _ _))]
    show Except.bind (Except.ok _) _ = _
    rw [Except.bind]
    by_cases hr : reaches c root = true
    · simp [hr]
    · rw [Bool.not_eq_true] at hr
      rw [hr]
      simp only [Bool.false_eq_true, if_false, Bool.false_or]
      exact recAny_spec nodes root ap hclosed hbelow rest
        (fun d hd => hmem d (List.mem_cons_of_mem _ hd))

end

end CRDTFS

namespace CRDTFS

theorem containsHash_iff {A : Type} [BEq A] [LawfulBEq A] (l : List A) (a : A) :
    l.contains a = true ↔ a ∈ l := by
  constructor
  · intro h
    rw [List.contains_iff_exists_mem_beq] at h
    rcases h with ⟨b, hb, hba⟩
    rw [eq_of_beq hba]
    exact hb
  · intro h
    rw [List.contains_iff_exists_mem_beq]
    exact ⟨a, h, beq_self_eq_true a⟩

theorem reaches_child {a c : Hash} (hc : c ∈ Hash.childHashes a) :
    reaches a c = true := by
  match a with
  | .mk v cs =>
    rw [reaches, Bool.or_eq_true]
    rw [Hash.childHashes] at hc
    exact Or.inr (reachesList_of_mem hc (reaches_self c))

theorem appliedClosed_extend {ap ap2 : List Hash} (P : Hash → Bool)
    (hap : AppliedClosed ap)
    (hP : ∀ a, P a = true → ∀ c ∈ Hash.childHashes a, P c = true)
    (hchar : ∀ x, x ∈ ap2 ↔ (P x = true ∧ x ∉ ap)) :
    AppliedClosed (ap ++ ap2) := by
  intro a ha c hc
  rcases List.mem_append.mp ha with ha | ha
  · exact List.mem_append.mpr (Or.inl (hap a ha c hc))
  · have hPa := ((hchar a).mp ha).1
    have hPc := hP a hPa c hc
    by_cases hcap : c ∈ ap
    · exact List.mem_append.mpr (Or.inl hcap)
    · exact List.mem_append.mpr (Or.inr ((hchar c).mpr ⟨hPc, hcap⟩))

theorem reaches_down {h a c : Hash} (hr : reaches h a = true)
    (hc : c ∈ Hash.childHashes a) : reaches h c = true :=
  reaches_trans hr (reaches_child hc)

theorem reachesList_down {cs : List Hash} {a c : Hash} (hr : reachesList cs a = true)
    (hc : c ∈ Hash.childHashes a) : reachesList cs c = true :=
  reachesList_trans hr (reaches_child hc)

mutual

theorem topoVisit_spec (nodes : List (Hash × MerkleNode))
    (hclosed : NodesClosed nodes) (hcons : NodesConsistent nodes) :
    ∀ (h : Hash) (ap : List Hash) (l : List MerkleNode),
      AppliedClosed ap → dMem nodes h = true →
      ∃ ap2 l2, topoVisit nodes h (ap, l) = .ok (ap ++ ap2, l ++ l2)
        ∧ l2.map (fun n => n.hash_value) = ap2
        ∧ (∀ n ∈ l2, dGet nodes n.hash_value = some n)
        ∧ ap2.Nodup
        ∧ (∀ x, x ∈ ap2 ↔ (reaches h x = true ∧ x ∉ ap))
  | .mk v cs, ap, l, hap, hm => by
    rcases Option.isSome_iff_exists.mp hm with ⟨n, hn⟩
    have hnv : n.hash_value = Hash.mk v cs := hcons _ (dGet_some_mem hn)
    have hget : dGetE nodes (Hash.mk v cs) = .ok n := by rw [dGetE, hn]
    rw [topoVisit, hget]
    simp only [Bind.bind, Except.bind, hnv]
    by_cases hc : ap.contains (Hash.mk v cs) = true
    · refine ⟨[], [], ?_, rfl, by simp, List.nodup_nil, ?_⟩
      · rw [hc]
        simp
      · intro x
        simp only [List.not_mem_nil, false_iff, not_and, Bool.not_eq_true]
        intro hr hx
        exfalso
        have hmem : Hash.mk v cs ∈ ap := (containsHash_iff ap _).mp hc
        exact hx (appliedClosed_reaches ap hap _ hmem x hr)
    · rw [Bool.not_eq_true] at hc
      have hnotmem : Hash.mk v cs ∉ ap := by
        intro hmem
        rw [(containsHash_iff ap _).mpr hmem] at hc
        cases hc
      rcases topoChildren_spec nodes hclosed hcons cs ap l hap
          (fun c hcc => dMem_child hclosed hm c (by rw [Hash.childHashes]; exact hcc))
        with ⟨apc, lc, heq, hmap, hstore, hnd, hchar⟩
      refine ⟨apc ++ [Hash.mk v cs], lc ++ [n], ?_, ?_, ?_, ?_, ?_⟩
      · rw [hc]
        simp only [Bool.false_eq_true, if_false, heq]
        rw [List.append_assoc, List.append_assoc]
      · rw [List.map_append, hmap, List.map, hnv]
        rfl
      · intro n2 hn2
        rcases List.mem_append.mp hn2 with hcase | hcase
        · exact hstore n2 hcase
        · rw [List.mem_singleton.mp hcase, hnv]
          exact hn
      · have hnotin : Hash.mk v cs ∉ apc := by
          intro hin
          have := ((hchar _).mp hin).1
          rw [reaches_not_self_child] at this
          cases this
        have hperm : (apc ++ [Hash.mk v cs]).Perm (Hash.mk v cs :: apc) :=
          List.perm_append_singleton _ _
        rw [hperm.nodup_iff]
        exact List.nodup_cons.mpr ⟨hnotin, hnd⟩
      · intro x
        rw [List.mem_append, List.mem_singleton, hchar x, reaches, Bool.or_eq_true]
        constructor
        · rintro (⟨hr, hx⟩ | hx)
          · exact ⟨Or.inr hr, hx⟩
          · rw [hx]
            exact ⟨Or.inl (beq_self_eq_true _), hnotmem⟩
        · rintro ⟨hr | hr, hx⟩
          · exact Or.inr (eq_of_beq hr).symm
          · exact Or.inl ⟨hr, hx⟩

theorem topoChildren_spec (nodes : List (Hash × MerkleNode))
    (hclosed : NodesClosed nodes) (hcons : NodesConsistent nodes) :
    ∀ (cs : List Hash) (ap : List Hash) (l : List MerkleNode),
      AppliedClosed ap → (∀ c ∈ cs, dMem nodes c = true) →
      ∃ ap2 l2, topoChildren nodes cs (ap, l) = .ok (ap ++ ap2, l ++ l2)
        ∧ l2.map (fun n => n.hash_value) = ap2
        ∧ (∀ n ∈ l2, dGet nodes n.hash_value = some n)
        ∧ ap2.Nodup
        ∧ (∀ x, x ∈ ap2 ↔ (reachesList cs x = true ∧ x ∉ ap))
  | [], ap, l, hap, hm => by
    refine ⟨[], [], by simp [topoChildren], rfl, by simp, List.nodup_nil, ?_⟩
    intro x
    simp [reachesList]
  | c :: rest, ap, l, hap, hm => by
    rcases topoVisit_spec nodes hclosed hcons c ap l hap
        (hm c (List.mem_cons_self _ _))
      with ⟨apc, lc, heqc, hmapc, hstorec, hndc, hcharc⟩
    have hap2 : AppliedClosed (ap ++ apc) :=
      appliedClosed_extend (fun x => reaches c x) hap
        (fun a hra d hd => reaches_down hra hd) hcharc
    rcases topoChildren_spec nodes hclosed hcons rest (ap ++ apc) (l ++ lc) hap2
        (fun d hd => hm d (List.mem_cons_of_mem _ hd))
      with ⟨apr, lr, heqr, hmapr, hstorer, hndr, hcharr⟩
    refine ⟨apc ++ apr, lc ++ lr, ?_, ?_, ?_, ?_, ?_⟩
    · rw [topoChildren, heqc]
      show Except.bind (Except.ok _) _ = _
      rw [Except.bind, heqr, List.append_assoc, List.append_assoc]
    · rw [List.map_append, hmapc, hmapr]
    · intro n2 hn2
      rcases List.mem_append.mp hn2 with hcase | hcase
      · exact hstorec n2 hcase
      · exact hstorer n2 hcase
    · apply List.Nodup.append hndc hndr
      intro x hx1 hx2
      have := ((hcharr x).mp hx2).2
      exact this (List.mem_append.mpr (Or.inr hx1))
    · intro x
      rw [List.mem_append, hcharc x, hcharr x, reachesList, Bool.or_eq_true]
      constructor
      · rintro (⟨hr, hx⟩ | ⟨hr, hx⟩)
        · exact ⟨Or.inl hr, hx⟩
        · exact ⟨Or.inr hr, fun hin => hx (List.mem_append.mpr (Or.inl hin))⟩
      · rintro ⟨hr | hr, hx⟩
        · exact Or.inl ⟨hr, hx⟩
        · by_cases hin : x ∈ apc
          · exact Or.inl ⟨((hcharc x).mp hin).1, hx⟩
          · exact Or.inr ⟨hr, fun hin2 => by
              rcases List.mem_append.mp hin2 with hh | hh
              · exact hx hh
              · exact hin hh⟩

end

end CRDTFS

namespace CRDTFS

theorem insertSorted_perm {α : Type} (key : α → Nat × Nat) (x : α) (l : List α) :
    (insertSorted key x l).Perm (x :: l) := by
  induction l with
  | nil => exact List.Perm.refl _
  | cons y ys ih =>
    rw [insertSorted]
    by_cases hxy : timeLt (key x) (key y) = true
    · rw [hxy]
      simp
    · rw [Bool.not_eq_true] at hxy
      rw [hxy]
      simp only [Bool.false_eq_true, if_false]
      exact (ih.cons y).trans (List.Perm.swap x y ys)

theorem sortByKey_perm_aux {α : Type} (key : α → Nat × Nat) (l acc : List α) :
    (List.foldl (fun acc x => insertSorted key x acc) acc l).Perm (acc ++ l) := by
  induction l generalizing acc with
  | nil => simp
  | cons a rest ih =>
    rw [List.foldl]
    refine (ih (insertSorted key a acc)).trans ?_
    refine (((insertSorted_perm key a acc).append_right rest).trans ?_)
    exact List.perm_middle.symm

theorem sortByKey_perm {α : Type} (key : α → Nat × Nat) (l : List α) :
    (sortByKey key l).Perm l := by
  have := sortByKey_perm_aux key l []
  rw [sortByKey]
  simpa using this

theorem insertSorted_sorted {α : Type} (key : α → Nat × Nat) (x : α) (l : List α)
    (h : l.Pairwise (fun a b => timeLt (key b) (key a) = false)) :
    (insertSorted key x l).Pairwise (fun a b => timeLt (key b) (key a) = false) := by
  induction l with
  | nil => simp [insertSorted]
  | cons y ys ih =>
    rcases List.pairwise_cons.mp h with ⟨hy, hys⟩
    rw [insertSorted]
    by_cases hxy : timeLt (key x) (key y) = true
    · rw [hxy]
      simp only [if_true]
      refine List.pairwise_cons.mpr ⟨?_, h⟩
      intro z hz
      cases hz with
      | head => exact timeLt_asymm hxy
      | tail _ hz2 =>
        cases hzx : timeLt (key z) (key x)
        · rfl
        · exfalso
          have h1 := timeLt_trans hzx hxy
          rw [hy z hz2] at h1
          cases h1
    · rw [Bool.not_eq_true] at hxy
      rw [hxy]
      simp only [Bool.false_eq_true, if_false]
      refine List.pairwise_cons.mpr ⟨?_, ih hys⟩
      intro z hz
      have hz2 := (insertSorted_perm key x ys).mem_iff.mp hz
      cases hz2 with
      | head => exact hxy
      | tail _ hz3 => exact hy z hz3

theorem sortByKey_sorted_aux {α : Type} (key : α → Nat × Nat) (l acc : List α)
    (hacc : acc.Pairwise (fun a b => timeLt (key b) (key a) = false)) :
    (List.foldl (fun acc x => insertSorted key x acc) acc l).Pairwise
      (fun a b => timeLt (key b) (key a) = false) := by
  induction l generalizing acc with
  | nil => exact hacc
  | cons a rest ih => exact ih _ (insertSorted_sorted key a acc hacc)

theorem timeLe_iff_not_lt (a b : Nat × Nat) : timeLe a b = true ↔ timeLt b a = false := by
  rcases a with ⟨a1, a2⟩
  rcases b with ⟨b1, b2⟩
  simp [timeLe, timeLt]
  omega

theorem sortByKey_sorted {α : Type} (key : α → Nat × Nat) (l : List α) :
    (sortByKey key l).Pairwise (fun a b => timeLe (key a) (key b) = true) := by
  have h := sortByKey_sorted_aux key l [] (List.Pairwise.nil)
  rw [← sortByKey] at h
  exact h.imp (fun hab => (timeLe_iff_not_lt _ _).mpr hab)

/-- C5: the three-way behavior of `add_root` on a well-formed state (DAG
closed and consistent, `applied_ops` closed under predecessors and lying
below the root, candidate and root present).  (1) An applied candidate
is a no-op.  (2)/(3) Otherwise there is a topological listing `lt` of
exactly the unseen operations reachable from the candidate and its
`(height, replica)`-sorted ordering `ls`, the derived state becomes the
fold of `apply_operation` over `ls`, and: when the local root is
reachable from the candidate the root becomes the candidate verbatim
with no new node; when it is not, a fresh empty-value node with children
`{candidate, local_root}` is created and becomes the root. -/
theorem add_root_spec {δ : Type} (applyOp : δ → List String → Except String δ)
    (s : CRDTState δ) (c : Hash)
    (hclosed : NodesClosed s.tree.nodes)
    (hcons : NodesConsistent s.tree.nodes)
    (hapc : AppliedClosed s.applied)
    (hbelow : ∀ a ∈ s.applied, reaches a s.tree.root = true → a = s.tree.root)
    (hcand : dMem s.tree.nodes c = true)
    (hroot : dMem s.tree.nodes s.tree.root = true) :
    (s.applied.contains c = true → add_root applyOp s c = .ok s)
    ∧ (s.applied.contains c = false →
        ∃ lt ls : List MerkleNode,
          ls.Perm lt
          ∧ ls.Pairwise (fun a b => timeLe (a.height, a.replica) (b.height, b.replica) = true)
          ∧ (ls.map (fun n => n.hash_value)).Nodup
          ∧ (∀ n ∈ ls, dGet s.tree.nodes n.hash_value = some n)
          ∧ (∀ x : Hash, x ∈ ls.map (fun n => n.hash_value)
                ↔ (reaches c x = true ∧ x ∉ s.applied))
          ∧ (reaches c s.tree.root = true →
              add_root applyOp s c
                = (ls.foldlM (fun d n => applyOp d n.value) s.derived).map
                    (fun d2 => { s with
                                   applied := s.applied ++ lt.map (fun n => n.hash_value)
                                   derived := d2
                                   tree := { s.tree with root := c } }))
          ∧ (reaches c s.tree.root = false →
              ∃ nn : MerkleNode, nn.hash_value = Hash.mk [] [c, s.tree.root]
                ∧ nn.value = [] ∧ nn.children = [c, s.tree.root]
                ∧ add_root applyOp s c
                  = (ls.foldlM (fun d n => applyOp d n.value) s.derived).map
                      (fun d2 => { s with
                                     applied := s.applied ++ lt.map (fun n => n.hash_value)
                                     derived := d2
                                     tree := { root := nn.hash_value,
                                               nodes := dSet s.tree.nodes nn.hash_value nn } }))) := by
  constructor
  · intro hc
    rw [add_root, hc]
    simp
  · intro hc
    rcases topoVisit_spec s.tree.nodes hclosed hcons c s.applied [] hapc hcand
      with ⟨ap2, l2, htopo, hmap, hstore, hnd, hchar⟩
    rw [List.nil_append] at htopo
    have hsortperm := sortByKey_perm (fun n : MerkleNode => (n.height, n.replica)) l2
    have hmapperm : ((sortByKey (fun n : MerkleNode => (n.height, n.replica)) l2).map
        (fun n => n.hash_value)).Perm ap2 := by
      rw [← hmap]
      exact hsortperm.map _
    refine ⟨l2, sortByKey (fun n : MerkleNode => (n.height, n.replica)) l2,
      hsortperm, sortByKey_sorted _ _, ?_, ?_, ?_, ?_, ?_⟩
    · rw [hmapperm.nodup_iff]
      exact hnd
    · intro n hn
      exact hstore n (hsortperm.mem_iff.mp hn)
    · intro x
      rw [List.mem_map]
      constructor
      · rintro ⟨n, hn, hx⟩
        apply (hchar x).mp
        rw [← hx, ← hmap]
        exact List.mem_map.mpr ⟨n, hsortperm.mem_iff.mp hn, rfl⟩
      · intro hx
        have := (hchar x).mpr hx
        rw [← hmap] at this
        rcases List.mem_map.mp this with ⟨n, hn, hx2⟩
        exact ⟨n, hsortperm.mem_iff.mpr hn, hx2⟩
    · intro hreach
      rw [add_root, hc]
      simp only [Bool.false_eq_true, if_false]
      rw [recVisit_spec s.tree.nodes s.tree.root s.applied hclosed hbelow c hcand]
      simp only [Bind.bind, Except.bind, htopo, hreach, hmap]
      cases hfold : (sortByKey (fun n : MerkleNode => (n.height, n.replica)) l2).foldlM
          (fun d n => applyOp d n.value) s.derived with
      | error e => simp [Except.map]
      | ok d2 => simp [Except.map]
    · intro hreach
      rcases Option.isSome_iff_exists.mp hcand with ⟨nc, hnc⟩
      rcases Option.isSome_iff_exists.mp hroot with ⟨nr, hnr⟩
      have hnew : new_node s.tree.nodes s.replica [] [c, s.tree.root]
          = .ok ⟨Hash.mk [] [c, s.tree.root], s.replica,
                 (List.foldl max 0 [nc.height, nr.height]) + 1, [], [c, s.tree.root]⟩ := by
        rw [new_node]
        simp only [List.mapM, List.mapM.loop, dGetE, hnc, hnr, Except.map]
        rfl
      refine ⟨⟨Hash.mk [] [c, s.tree.root], s.replica,
               (List.foldl max 0 [nc.height, nr.height]) + 1, [], [c, s.tree.root]⟩,
              rfl, rfl, rfl, ?_⟩
      rw [add_root, hc]
      simp only [Bool.false_eq_true, if_false]
      rw [recVisit_spec s.tree.nodes s.tree.root s.applied hclosed hbelow c hcand]
      simp only [Bind.bind, Except.bind, htopo, hreach, hmap, hnew]
      cases hfold : (sortByKey (fun n : MerkleNode => (n.height, n.replica)) l2).foldlM
          (fun d n => applyOp d n.value) s.derived with
      | error e => simp [Except.map]
      | ok d2 => simp [Except.map]

end CRDTFS

namespace CRDTFS

theorem add_root_spec_witness :
    add_root lwwApply { lwwInit 5 with applied := [Hash.mk [] []] } (Hash.mk [] [])
      = .ok { lwwInit 5 with applied := [Hash.mk [] []] } := by
  exact (add_root_spec lwwApply { lwwInit 5 with applied := [Hash.mk [] []] }
    (Hash.mk [] []) (by unfold NodesClosed; decide) (by unfold NodesConsistent; decide)
    (by unfold AppliedClosed; decide) (by decide) (by decide)
    (by decide)).1 (by decide)

end CRDTFS
